import Mathlib

/-!
# Verification of the go-socket.io server core

Shallow embedding of the codec, session and server logic of the
go-socket.io repository.  Strings and byte slices are modelled as
`List Char` (one entry per rune; the Go code reads, counts and slices
runes, so rune-level modelling matches the code's own unit of work),
machine integers as `Nat`/`Int`, and fallible operations as `Except`/`Option`.
-/

namespace GoSocketIO

/-! ## Decimal digits

`decDigit`, `natToChars` and `intToChars` model the output of Go's
`fmt.Fprintf("%d", n)` / `strconv.Itoa`; `digitsVal`/`positiveInt` model
the repository's `positiveInt` helper and `strconv.Atoi` on digit strings.
-/

/-- The decimal digit character for `d < 10` (ASCII `'0' + d`). -/
def decDigit (d : Nat) : Char := Char.ofNat (48 + d)

/-- Fuel-driven core of the decimal printer (structural recursion so that
terms reduce inside the kernel). -/
def natToCharsCore : Nat → Nat → List Char
  | 0, _ => []
  | fuel + 1, n =>
    if n < 10 then [decDigit n] else natToCharsCore fuel (n / 10) ++ [decDigit (n % 10)]

/-- Decimal representation of a natural number, most significant digit first,
as printed by `%d` / `strconv.Itoa`. -/
def natToChars (n : Nat) : List Char := natToCharsCore (n + 1) n

theorem natToCharsCore_eq_of_lt :
    ∀ (f g n : Nat), n < f → n < g → natToCharsCore f n = natToCharsCore g n := by
  intro f
  induction f with
  | zero => intro g n h _; omega
  | succ f ih =>
    intro g n hf hg
    cases g with
    | zero => omega
    | succ g =>
      rw [natToCharsCore, natToCharsCore]
      split

      · rfl
      · next h =>
        rw [ih g (n / 10) (by omega) (by omega)]

/-- The defining recurrence of `natToChars`. -/
theorem natToChars_eq (n : Nat) :
    natToChars n =
      if n < 10 then [decDigit n] else natToChars (n / 10) ++ [decDigit (n % 10)] := by
  unfold natToChars
  rw [natToCharsCore]
  split
  · rfl
  · next h =>
    rw [natToCharsCore_eq_of_lt n (n / 10 + 1) (n / 10) (by omega) (by omega)]

/-- Decimal representation of an integer as printed by `%d`. -/
def intToChars (n : Int) : List Char :=
  if n < 0 then '-' :: natToChars n.natAbs else natToChars n.toNat

/-- Test that `c` is an ASCII decimal digit (the test `c >= '0' && c <= '9'`). -/
def isDig (c : Char) : Bool := decide ('0' ≤ c) && decide (c ≤ '9')

/-- Accumulate the decimal value of a digit string, as the loop in the
repository's `positiveInt` does (`v = v*10 + int(c) - '0'`). -/
def digitsVal (a : Nat) (p : List Char) : Nat :=
  p.foldl (fun v c => v * 10 + (c.toNat - 48)) a

/-- Model of `positiveInt` from `codec.go` (v0.7 family): `-1` on the empty
string or on any non-digit character, otherwise the decimal value.  The Go
accumulator is a wrapping 64-bit machine `int`; this unbounded version is
its no-overflow abstraction, exact whenever the digit value is below `2^63`
(see `positiveInt64` and `positiveInt64_eq_positiveInt` for the wrapping
machine semantics, used where adversarial overflow matters). -/
def positiveInt (p : List Char) : Int :=
  if p.isEmpty then -1
  else if p.all isDig then (digitsVal 0 p : Int)
  else -1

/-- Model of `strconv.Atoi` restricted to the digit-only buffers the decoders feed it:
errors on the empty string, otherwise the decimal value. -/
def atoiNat (p : List Char) : Option Nat :=
  if p.isEmpty then none
  else if p.all isDig then some (digitsVal 0 p) else none

theorem toNat_decDigit {d : Nat} (h : d < 10) : (decDigit d).toNat = 48 + d := by
  interval_cases d <;> decide

theorem isDig_decDigit {d : Nat} (h : d < 10) : isDig (decDigit d) = true := by
  interval_cases d <;> decide

theorem natToChars_ne_nil (n : Nat) : natToChars n ≠ [] := by
  rw [natToChars_eq]
  split <;> simp

theorem natToChars_all_digit (n : Nat) : ∀ c ∈ natToChars n, isDig c = true := by
  induction n using Nat.strong_induction_on with
  | _ n ih =>
    rw [natToChars_eq]
    split
    · next h =>
      intro c hc
      simp only [List.mem_singleton] at hc
      subst hc
      exact isDig_decDigit h
    · next h =>
      intro c hc
      rcases List.mem_append.mp hc with h1 | h1
      · exact ih (n / 10) (Nat.div_lt_self (by omega) (by omega)) c h1
      · simp only [List.mem_singleton] at h1
        subst h1
        exact isDig_decDigit (Nat.mod_lt _ (by omega))

theorem digitsVal_append (a : Nat) (xs ys : List Char) :
    digitsVal a (xs ++ ys) = digitsVal (digitsVal a xs) ys := by
  simp [digitsVal, List.foldl_append]

theorem digitsVal_natToChars (n : Nat) :
    ∀ a, digitsVal a (natToChars n) = a * 10 ^ (natToChars n).length + n := by
  induction n using Nat.strong_induction_on with
  | _ n ih =>
    intro a
    rw [natToChars_eq]
    split
    · next h =>
      simp only [digitsVal, List.foldl_cons, List.foldl_nil, List.length_cons,
        List.length_nil, Nat.zero_add, pow_one, toNat_decDigit h]
      omega
    · next h =>
      rw [digitsVal_append, ih (n / 10) (Nat.div_lt_self (by omega) (by omega))]
      have hdm : n / 10 * 10 + n % 10 = n := by omega
      simp only [digitsVal, List.foldl_cons, List.foldl_nil, List.length_append,
        List.length_cons, List.length_nil, Nat.zero_add]
      rw [toNat_decDigit (Nat.mod_lt _ (by omega)), pow_succ, ← mul_assoc]
      set Y := a * 10 ^ (natToChars (n / 10)).length with hY
      omega

theorem digitsVal_natToChars_zero (n : Nat) : digitsVal 0 (natToChars n) = n := by
  rw [digitsVal_natToChars]
  simp

theorem positiveInt_natToChars (n : Nat) : positiveInt (natToChars n) = (n : Int) := by
  unfold positiveInt
  rw [if_neg (by simp [natToChars_ne_nil n]), if_pos (by
    rw [List.all_eq_true]
    exact natToChars_all_digit n)]
  rw [digitsVal_natToChars_zero]

theorem isDig_toNat {c : Char} (h : isDig c = true) : 48 ≤ c.toNat ∧ c.toNat ≤ 57 := by
  simp only [isDig, Bool.and_eq_true, decide_eq_true_eq] at h
  exact ⟨h.1, h.2⟩

theorem digit_ne_colon {c : Char} (h : isDig c = true) : c ≠ ':' := by
  intro hc
  subst hc
  simp [isDig] at h

theorem digit_ne_plus {c : Char} (h : isDig c = true) : c ≠ '+' := by
  intro hc
  subst hc
  simp [isDig] at h

theorem colon_not_mem_natToChars (n : Nat) : ':' ∉ natToChars n := by
  intro hmem
  exact digit_ne_colon (natToChars_all_digit n ':' hmem) rfl

instance {ε α : Type} [DecidableEq ε] [DecidableEq α] : DecidableEq (Except ε α) :=
  fun a b =>
  match a, b with
  | .error e, .error f =>
    if h : e = f then .isTrue (by rw [h]) else .isFalse (fun hc => h (Except.error.inj hc))
  | .error _, .ok _ => .isFalse (fun hc => Except.noConfusion hc)
  | .ok _, .error _ => .isFalse (fun hc => Except.noConfusion hc)
  | .ok x, .ok y =>
    if h : x = y then .isTrue (by rw [h]) else .isFalse (fun hc => h (Except.ok.inj hc))

/-! ## Splitting on `':'`

`bytes.SplitN(data, []byte{':'}, n)` from the v0.7 packet decoder:
split at the first separator (`breakColon`), recurse with a smaller budget,
and leave the remainder unsplit in the last part.
-/

/-- Split a string at the first `':'`: the part before it and, when a `':'`
exists, the remainder after it. -/
def breakColon : List Char → List Char × Option (List Char)
  | [] => ([], none)
  | c :: cs =>
    if c = ':' then ([], some cs)
    else
      let r := breakColon cs
      (c :: r.1, r.2)

/-- Model of `bytes.SplitN(s, ":", n)`: at most `n` parts, the last part unsplit. -/
def splitNColon : Nat → List Char → List (List Char)
  | 0, s => [s]
  | 1, s => [s]
  | n + 2, s =>
    match breakColon s with
    | (p, none) => [p]
    | (p, some rest) => p :: splitNColon (n + 1) rest

theorem breakColon_of_no_colon {a : List Char} (h : ':' ∉ a) :
    breakColon a = (a, none) := by
  induction a with
  | nil => rfl
  | cons c cs ih =>
    rw [breakColon]
    rw [if_neg (by intro hc; exact h (hc ▸ List.mem_cons_self c cs))]
    rw [ih (fun hm => h (List.mem_cons_of_mem c hm))]

theorem breakColon_append {a : List Char} (b : List Char) (h : ':' ∉ a) :
    breakColon (a ++ ':' :: b) = (a, some b) := by
  induction a with
  | nil => simp [breakColon]
  | cons c cs ih =>
    rw [List.cons_append, breakColon]
    rw [if_neg (by intro hc; exact h (hc ▸ List.mem_cons_self c cs))]
    rw [ih (fun hm => h (List.mem_cons_of_mem c hm))]

/-! ## The v0.7 typed message and its packet codec

From `message.go` and `codec.go` of the v0.7 family: the `Message` record
with tag/id/ack/endpoint/data, `encodePacket` for the `*Message` case and
`decodePacket`.  A negative decoded `id` is representable because
`positiveInt` returns `-1` (the Go field is a signed `int`).
-/

/-- The v0.7 `Message` record (tags 0..8 on the wire). -/
structure Message07 where
  typ : Nat
  id : Int
  ack : Bool
  endpoint : List Char
  data : List Char
deriving DecidableEq, Repr

/-- Message type tags from `message.go` (v0.7 family). -/
def MessageDisconnect : Nat := 0
def MessageConnect : Nat := 1
def MessageHeartbeat : Nat := 2
def MessageText : Nat := 3
def MessageJSON : Nat := 4
def MessageEvent : Nat := 5
def MessageACK : Nat := 6
def MessageError : Nat := 7
def MessageNOOP : Nat := 8

/-- Model of `encodePacket` (the `*Message` case): `<type>:<id['+']>:<endpoint>[:<data>]`;
the id is printed only when positive, `'+'` appended iff `ack`, and the
`:<data>` tail only when data is non-empty. -/
def encodeMessage (m : Message07) : List Char :=
  natToChars m.typ ++ [':']
    ++ (if 0 < m.id then intToChars m.id else [])
    ++ (if m.ack then ['+'] else [])
    ++ [':'] ++ m.endpoint
    ++ (if m.data.isEmpty then [] else ':' :: m.data)

/-- Model of `decodePacket`: split into at most 4 parts on `':'`, validate the type
digit (`0 <= i && i <= 9`), read the id and ack flag from part 1, the
endpoint from part 2 and the data from part 3 when present.  Fields not
assigned keep the values `zero()` put there. -/
def decodePacket (data : List Char) : Except String Message07 :=
  let parts := splitNColon 4 data
  if parts.length < 3 then .error "invalid number of parts"
  else
    let i := positiveInt parts[0]!
    if 0 ≤ i ∧ i ≤ 9 then
      let p1 := parts[1]!
      let ack : Bool := if p1.isEmpty then false else p1.getLast! = '+'
      let p1' := if p1.isEmpty then p1 else if p1.getLast! = '+' then p1.dropLast else p1
      let id : Int := if p1.isEmpty then 0 else positiveInt p1'
      .ok { typ := i.toNat, id := id, ack := ack,
            endpoint := parts[2]!,
            data := if parts.length = 4 then parts[3]! else [] }
    else .error "invalid type"

theorem intToChars_of_pos {n : Int} (h : 0 < n) : intToChars n = natToChars n.toNat := by
  unfold intToChars
  rw [if_neg (by omega)]

theorem colon_not_mem_intToChars {n : Int} (h : 0 < n) : ':' ∉ intToChars n := by
  rw [intToChars_of_pos h]
  exact colon_not_mem_natToChars _

theorem splitNColon_cons (n : Nat) {a : List Char} (b : List Char) (h : ':' ∉ a) :
    splitNColon (n + 2) (a ++ ':' :: b) = a :: splitNColon (n + 1) b := by
  rw [splitNColon, breakColon_append b h]

theorem splitNColon_no_colon (n : Nat) {a : List Char} (h : ':' ∉ a) :
    splitNColon (n + 2) a = [a] := by
  rw [splitNColon, breakColon_of_no_colon h]

theorem getLast!_concat (xs : List Char) (x : Char) : (xs ++ [x]).getLast! = x := by
  induction xs with
  | nil => rfl
  | cons c cs ih =>
    cases cs <;> simp_all [List.getLast!, List.getLast]

/-- The middle part of an encoded packet (id digits plus optional `'+'`)
contains no `':'`. -/
theorem colon_not_mem_idack (m : Message07) :
    ':' ∉ (if 0 < m.id then intToChars m.id else []) ++ (if m.ack then ['+'] else []) := by
  intro hmem
  rcases List.mem_append.mp hmem with h1 | h1
  · split at h1
    · exact colon_not_mem_intToChars (by assumption) h1
    · simp at h1
  · split at h1 <;> simp_all

/-- Splitting an encoded packet recovers the four syntactic fields, provided
the endpoint is colon-free. -/
theorem splitNColon_encodeMessage (m : Message07) (hep : ':' ∉ m.endpoint) :
    splitNColon 4 (encodeMessage m) =
      [natToChars m.typ,
       (if 0 < m.id then intToChars m.id else []) ++ (if m.ack then ['+'] else []),
       m.endpoint] ++ (if m.data.isEmpty then [] else [m.data]) := by
  have he : encodeMessage m = natToChars m.typ ++ ':' ::
      (((if 0 < m.id then intToChars m.id else []) ++ (if m.ack then ['+'] else [])) ++
        ':' :: (m.endpoint ++ (if m.data.isEmpty then [] else ':' :: m.data))) := by
    unfold encodeMessage
    simp [List.append_assoc]
  rw [he,
    show (4 : Nat) = 2 + 2 from rfl,
    splitNColon_cons 2 _ (colon_not_mem_natToChars m.typ),
    show (2 + 1 : Nat) = 1 + 2 from rfl,
    splitNColon_cons 1 _ (colon_not_mem_idack m)]
  by_cases hd : m.data.isEmpty
  · rw [if_pos hd, if_pos hd, List.append_nil]
    rw [show (1 + 1 : Nat) = 0 + 2 from rfl, splitNColon_no_colon 0 hep]
    rfl
  · rw [if_neg hd, if_neg hd]
    rw [show (1 + 1 : Nat) = 0 + 2 from rfl, splitNColon_cons 0 _ hep]
    rfl

/-- C1 (amended): Decoding an encoded packet restores the
message exactly, for messages whose endpoint is colon-free and which do not
combine `id = 0` with a set ack flag. -/
theorem decodePacket_encodeMessage (m : Message07) (ht : m.typ ≤ 8)
    (hid : 0 ≤ m.id) (hep : ':' ∉ m.endpoint)
    (hia : ¬(m.id = 0 ∧ m.ack = true)) :
    decodePacket (encodeMessage m) = .ok m := by
  obtain ⟨typ, id, ack, ep, data⟩ := m
  simp only at ht hid hep hia
  unfold decodePacket
  rw [splitNColon_encodeMessage ⟨typ, id, ack, ep, data⟩ hep]
  simp only
  have hlen : ([natToChars typ,
      (if 0 < id then intToChars id else []) ++ (if ack then ['+'] else []), ep] ++
      (if data.isEmpty then [] else [data])).length = if data.isEmpty then 3 else 4 := by
    by_cases hd : data.isEmpty <;> simp [hd]
  rw [if_neg (by rw [hlen]; split <;> omega)]
  have hp0 : ([natToChars typ,
      (if 0 < id then intToChars id else []) ++ (if ack then ['+'] else []), ep] ++
      (if data.isEmpty then [] else [data]))[0]! = natToChars typ := by
    by_cases hd : data.isEmpty <;> simp [hd]
  have hp1 : ([natToChars typ,
      (if 0 < id then intToChars id else []) ++ (if ack then ['+'] else []), ep] ++
      (if data.isEmpty then [] else [data]))[1]! =
      (if 0 < id then intToChars id else []) ++ (if ack then ['+'] else []) := by
    by_cases hd : data.isEmpty <;> simp [hd]
  have hp2 : ([natToChars typ,
      (if 0 < id then intToChars id else []) ++ (if ack then ['+'] else []), ep] ++
      (if data.isEmpty then [] else [data]))[2]! = ep := by
    by_cases hd : data.isEmpty <;> simp [hd]
  rw [hp0, hp1, hp2, positiveInt_natToChars typ]
  rw [if_pos (by constructor <;> omega)]
  have hdata : (if ([natToChars typ,
      (if 0 < id then intToChars id else []) ++ (if ack then ['+'] else []), ep] ++
      (if data.isEmpty then [] else [data])).length = 4 then
        ([natToChars typ,
          (if 0 < id then intToChars id else []) ++ (if ack then ['+'] else []), ep] ++
          (if data.isEmpty then [] else [data]))[3]!
      else []) = data := by
    by_cases hd : data.isEmpty
    · rw [hlen]
      simp only [hd, if_true]
      rw [if_neg (by omega)]
      exact (List.isEmpty_iff.mp hd).symm
    · rw [hlen]
      simp only [hd, if_false]
      simp [hd]
  rw [hdata]
  have htypt : ((typ : Int)).toNat = typ := Int.toNat_natCast typ
  rcases lt_or_eq_of_le hid with hpos | hzero
  · -- positive id
    rw [if_pos hpos, intToChars_of_pos hpos]
    obtain ⟨ys, y, hy⟩ := (natToChars id.toNat).eq_nil_or_concat.resolve_left
      (natToChars_ne_nil id.toNat)
    rw [List.concat_eq_append] at hy
    have hydig : isDig y = true := by
      apply natToChars_all_digit id.toNat
      rw [hy]
      simp
    have hidv : positiveInt (ys ++ [y]) = id := by
      rw [← hy, positiveInt_natToChars, Int.toNat_of_nonneg hid]
    have hyne : y ≠ '+' := digit_ne_plus hydig
    cases ack with
    | false =>
      have hemp : (ys ++ [y]).isEmpty = false := by simp
      rw [hy]
      simp [hemp, getLast!_concat, hyne, hidv, htypt]
    | true =>
      have hgl : (ys ++ [y, '+']).getLast! = '+' := by
        rw [show ys ++ [y, '+'] = (ys ++ [y]) ++ ['+'] by simp]
        exact getLast!_concat _ _
      rw [hy]
      simp [hgl, hidv, htypt]
  · -- id = 0, hence no ack
    have hack : ack = false := by
      cases ack
      · rfl
      · exact absurd ⟨hzero.symm, rfl⟩ hia
    subst hack
    rw [← hzero]
    simp [htypt]

/-- C1 counterexample: The claim's round-trip fails at the explicitly
allowed corner `id = 0 ∧ ack = true`: the decoder reads the id field `"+"`,
strips the `'+'` and parses the empty string, producing `id = -1`. -/
theorem decodePacket_encodeMessage_id_zero_ack :
    (Message07.mk 3 0 true [] ['a']).id = 0 ∧
    (Message07.mk 3 0 true [] ['a']).ack = true ∧
    (Message07.mk 3 0 true [] ['a']).typ = MessageText ∧
    decodePacket (encodeMessage (Message07.mk 3 0 true [] ['a'])) =
      .ok (Message07.mk 3 (-1) true [] ['a']) ∧
    decodePacket (encodeMessage (Message07.mk 3 0 true [] ['a'])) ≠
      .ok (Message07.mk 3 0 true [] ['a']) := by
  refine ⟨rfl, rfl, rfl, by decide, by decide⟩

/-- C1 witness: The amended round-trip at a concrete message. -/
theorem decodePacket_encodeMessage_witness :
    decodePacket (encodeMessage (Message07.mk 3 5 true ['e'] ['a', ':', 'b'])) =
      .ok (Message07.mk 3 5 true ['e'] ['a', ':', 'b']) :=
  decodePacket_encodeMessage (Message07.mk 3 5 true ['e'] ['a', ':', 'b'])
    (by decide) (by decide) (by decide) (by decide)

/-- Returns `true` iff the computation failed. -/
def isErr {ε α : Type} : Except ε α → Bool
  | .error _ => true
  | .ok _ => false

/-- Reinterpret `n mod 2^64` as a two's-complement signed value: the result
of Go's wrapping 64-bit `int` arithmetic on a computation whose exact value
is `n`. -/
def toInt64 (n : Nat) : Int :=
  if n % 2 ^ 64 < 2 ^ 63 then ((n % 2 ^ 64 : Nat) : Int)
  else ((n % 2 ^ 64 : Nat) : Int) - 2 ^ 64

/-- Machine-faithful `positiveInt`: Go accumulates `v = v*10 + int(c) - '0'`
in a wrapping 64-bit `int`, and wrapping at every step equals wrapping the
exact value once (reduction mod `2^64` is a ring homomorphism), so the
result on an all-digit string is the two's-complement reading of the exact
digit value mod `2^64`. -/
def positiveInt64 (p : List Char) : Int :=
  if p.isEmpty then -1
  else if p.all isDig then toInt64 (digitsVal 0 p)
  else -1

/-- The unbounded `positiveInt` is the no-overflow abstraction of the
machine-faithful `positiveInt64`: they agree on every digit string whose
value fits in a signed 64-bit `int` — in particular on all fields produced
by the encoder from Go-representable messages. -/
theorem positiveInt64_eq_positiveInt (p : List Char) (h : digitsVal 0 p < 2 ^ 63) :
    positiveInt64 p = positiveInt p := by
  unfold positiveInt64 positiveInt toInt64
  by_cases h1 : p.isEmpty
  · rw [if_pos h1, if_pos h1]
  · rw [if_neg h1, if_neg h1]
    by_cases h2 : p.all isDig
    · rw [if_pos h2, if_pos h2,
        Nat.mod_eq_of_lt (show digitsVal 0 p < 2 ^ 64 by omega), if_pos h]
    · rw [if_neg h2, if_neg h2]

/-- Machine-faithful `decodePacket`: identical to `decodePacket` except that
the type and id fields are parsed with the wrapping `positiveInt64`, which
is what the Go machine-`int` arithmetic does on adversarial inputs whose
digit fields overflow. -/
def decodePacket64 (data : List Char) : Except String Message07 :=
  let parts := splitNColon 4 data
  if parts.length < 3 then .error "invalid number of parts"
  else
    let i := positiveInt64 parts[0]!
    if 0 ≤ i ∧ i ≤ 9 then
      let p1 := parts[1]!
      let ack : Bool := if p1.isEmpty then false else p1.getLast! = '+'
      let p1' := if p1.isEmpty then p1 else if p1.getLast! = '+' then p1.dropLast else p1
      let id : Int := if p1.isEmpty then 0 else positiveInt64 p1'
      .ok { typ := i.toNat, id := id, ack := ack,
            endpoint := parts[2]!,
            data := if parts.length = 4 then parts[3]! else [] }
    else .error "invalid type"

/-- C8 counterexample: the decoder accepts the type digit `9`, outside the
declared tag set `{0..8}`, and — because the digit accumulator wraps in a
64-bit machine `int` — it also accepts the type field
`18446744073709551619` (`2^64 + 3`), which wraps to tag `3`; in both cases
a message is produced instead of an error. -/
theorem decodePacket64_accepts_undeclared_types :
    decodePacket64 ['9', ':', ':'] = .ok (Message07.mk 9 0 false [] []) ∧
    ¬(Message07.mk 9 0 false [] []).typ ≤ MessageNOOP ∧
    decodePacket64 "18446744073709551619::".toList =
      .ok (Message07.mk 3 0 false [] []) := by
  exact ⟨by decide, by decide, by decide⟩

/-- C8 (amended): every message the packet decoder produces has a type tag
in `{0..9}` (the guard is `i >= 0 && i <= 9`, one more than the declared
set); the type field is parsed with Go's wrapping 64-bit `int` accumulator,
so a numeric field is accepted exactly when its two's-complement value
mod `2^64` lands in `[0, 9]` — even when the written number is enormous —
and any input whose type field is empty, non-numeric, or wraps to a value
outside `[0, 9]` is rejected with an error and no message. -/
theorem decodePacket64_type_range :
    (∀ (d : List Char) (m : Message07), decodePacket64 d = .ok m → m.typ ≤ 9) ∧
    (∀ d : List Char, 3 ≤ (splitNColon 4 d).length →
      ¬(0 ≤ positiveInt64 (splitNColon 4 d)[0]! ∧
        positiveInt64 (splitNColon 4 d)[0]! ≤ 9) →
      isErr (decodePacket64 d) = true) := by
  constructor
  · intro d m h
    unfold decodePacket64 at h
    dsimp only at h
    split at h
    · exact absurd h (by simp)
    · split at h
      · next hcond =>
        have hm := Except.ok.inj h
        rw [← hm]
        dsimp only
        omega
      · exact absurd h (by simp)
  · intro d h3 hbad
    unfold decodePacket64
    rw [if_neg (by omega)]
    dsimp only
    split
    · next hcond => exact absurd hcond hbad
    · rfl

/-- C8 witness: the range bound at the concrete wrapped input
`"18446744073709551619::"` (accepted as tag 3), and the error on the
concrete non-wrapping out-of-range input `"10::"`. -/
theorem decodePacket64_type_range_witness :
    (Message07.mk 3 0 false [] []).typ ≤ 9 ∧
    isErr (decodePacket64 ['1', '0', ':', ':']) = true :=
  ⟨decodePacket64_type_range.1 "18446744073709551619::".toList
      (Message07.mk 3 0 false [] []) (by decide),
   decodePacket64_type_range.2 ['1', '0', ':', ':'] (by decide) (by decide)⟩

/-! ## Session identifiers

`NewSessionID` from `session.go`: 16 random bytes, each reduced modulo the
62-character charset (`b[i] = SessionIDCharset[b[i]%62]`).
-/

/-- The charset `SessionIDCharset` from `session.go`. -/
def SessionIDCharset : List Char :=
  "0123456789ABCDEFGHIJKLMNOPQRSTUVWXYZabcdefghijklmnopqrstuvwxyz".toList

/-- The constant `SessionIDLength` from `session.go`. -/
def SessionIDLength : Nat := 16

/-- The deterministic part of `NewSessionID`: map each random byte `b` to
`SessionIDCharset[b % len(SessionIDCharset)]`. -/
def sessionIdFromBytes (bs : List Nat) : List Char :=
  bs.map (fun b => SessionIDCharset.getD (b % SessionIDCharset.length) ' ')

/-- C9 (amended): A generated session id is 16 characters long and each
character is drawn from the charset; each character is the charset entry at
index `byte % 62` (which is *not* a uniform map from bytes, see the
counterexample). -/
theorem sessionIdFromBytes_spec (bs : List Nat) (h : bs.length = SessionIDLength) :
    (sessionIdFromBytes bs).length = 16 ∧
    ∀ c ∈ sessionIdFromBytes bs, c ∈ SessionIDCharset := by
  constructor
  · simp [sessionIdFromBytes, h, SessionIDLength]
  · intro c hc
    simp only [sessionIdFromBytes, List.mem_map] at hc
    obtain ⟨b, _, hb⟩ := hc
    rw [← hb]
    have hlt : b % SessionIDCharset.length < SessionIDCharset.length :=
      Nat.mod_lt _ (by decide)
    rw [List.getD_eq_getElem _ _ hlt]
    exact List.getElem_mem _

/-- C9 witness: The amended statement at a concrete byte string. -/
theorem sessionIdFromBytes_spec_witness :
    (sessionIdFromBytes (List.range 16)).length = 16 ∧
    ∀ c ∈ sessionIdFromBytes (List.range 16), c ∈ SessionIDCharset :=
  sessionIdFromBytes_spec (List.range 16) (by decide)

/-- C9 counterexample: The map `b % 62` is biased: 5 of the 256 byte
values produce the charset character at index 0 (`'0'`), but only 4 produce
the one at index 61 (`'z'`), so the characters are not equally likely under
uniformly random bytes. -/
theorem sessionId_mod_bias :
    ((List.range 256).filter
      (fun b => sessionIdFromBytes [b] = ['0'])).length = 5 ∧
    ((List.range 256).filter
      (fun b => sessionIdFromBytes [b] = ['z'])).length = 4 := by
  exact ⟨by decide, by decide⟩

/-! ## The delimiter-framed (SIO) codec

From the second half of `codec_sio.go`: frames are
`~m~<rune-count>~m~<body>`, a body starting `~j~` is a JSON message, one
starting `~h~` a heartbeat, anything else plain text.  The decoder is the
rune-at-a-time state machine `sioDecoder.Decode`; its bulk read of the data
section (`utf8str.Slice`) consumes exactly the runes the rune-at-a-time
loop would, so the state machine is modelled per rune.
-/

/-- The delimiter `sioFrameDelim` (`"~m~"`). -/
def sioDelimM : List Char := ['~', 'm', '~']

/-- The delimiter `sioFrameDelimJSON` (`"~j~"`). -/
def sioDelimJ : List Char := ['~', 'j', '~']

/-- The delimiter `sioFrameDelimHeartbeat` (`"~h~"`). -/
def sioDelimH : List Char := ['~', 'h', '~']

/-- Message type tags of the SIO codec. -/
def sioMessageTypeDisconnect : Nat := 0
def sioMessageTypeMessage : Nat := 1
def sioMessageTypeHeartbeat : Nat := 2
def sioMessageTypeHandshake : Nat := 3

/-- A decoded `sioMessage`: type tag, whether the only annotation the
decoder ever writes (`SIOAnnotationJSON` with empty value) is present, and
the data bytes. -/
structure SioMsg where
  typ : Nat
  jannot : Bool
  data : List Char
deriving DecidableEq, Repr

/-- Finishing a frame body: strip the `~j~`/`~h~` markers as
`sioDecoder.Decode` does once the data section is complete. -/
def sioMkMsg (d : List Char) : SioMsg :=
  if d.take 3 = sioDelimJ then ⟨sioMessageTypeMessage, true, d.drop 3⟩
  else if d.take 3 = sioDelimH then ⟨sioMessageTypeHeartbeat, false, d.drop 3⟩
  else ⟨sioMessageTypeMessage, false, d⟩

/-- Decoder state: `hdr` accumulates the opening `~m~` (the `Begin` state is
`hdr []`), `len` accumulates the digits of the length, `hend` the closing
`~m~`, and `dat n buf` needs `n` more data runes. -/
inductive SioSt
  | hdr (buf : List Char)
  | len (buf : List Char)
  | hend (n : Nat) (buf : List Char)
  | dat (n : Nat) (buf : List Char)
deriving DecidableEq, Repr

/-- The `sioDecodeStateHeaderEnd` case (also entered by fallthrough from the
length state): accumulate the closing `~m~`, then start the data section, or
emit an empty text message for a zero-length frame. -/
def sioHeaderEnd (n : Nat) (buf : List Char) (c : Char) :
    Except String (SioSt × Option SioMsg) :=
  let b := buf ++ [c]
  if b.length < 3 then .ok (.hend n b, none)
  else if b = sioDelimM then
    if 0 < n then .ok (.dat n [], none)
    else .ok (.hdr [], some (sioMkMsg []))
  else .error "Malformed header"

/-- One rune of `sioDecoder.Decode`. -/
def sioStep (s : SioSt) (c : Char) : Except String (SioSt × Option SioMsg) :=
  match s with
  | .hdr buf =>
    let b := buf ++ [c]
    if b.length = 3 then
      if b = sioDelimM then .ok (.len [], none) else .error "Malformed header"
    else .ok (.hdr b, none)
  | .len buf =>
    if isDig c then .ok (.len (buf ++ [c]), none)
    else
      match atoiNat buf with
      | none => .error "invalid length"
      | some n => sioHeaderEnd n [] c
  | .hend n buf => sioHeaderEnd n buf c
  | .dat n buf =>
    if n - 1 = 0 then .ok (.hdr [], some (sioMkMsg (buf ++ [c])))
    else .ok (.dat (n - 1) (buf ++ [c]), none)

/-- Run the decoder over all available runes, accumulating messages
(one call of `sioDecoder.Decode` on a source holding `cs`). -/
def sioRun (s : SioSt) : List Char → Except String (SioSt × List SioMsg)
  | [] => .ok (s, [])
  | c :: cs =>
    match sioStep s c with
    | .error e => .error e
    | .ok (s', m) =>
      match sioRun s' cs with
      | .error e => .error e
      | .ok (s'', ms) => .ok (s'', m.toList ++ ms)

/-- Frame `~m~<len>~m~<body>` with the length measured in runes, as every branch
of `sioEncoder.Encode` emits it. -/
def sioFrame (body : List Char) : List Char :=
  sioDelimM ++ natToChars body.length ++ sioDelimM ++ body

/-- The `string` case of `sioEncoder.Encode`: a zero-rune string produces no
output, otherwise one `~m~`-frame whose body is the string itself. -/
def sioEncodeString (s : List Char) : List Char :=
  if s.length = 0 then [] else sioFrame s

/-- The `[]byte` case of `sioEncoder.Encode` (identical framing). -/
def sioEncodeBytes (s : List Char) : List Char :=
  if s.length = 0 then [] else sioFrame s

/-- The `heartbeat` case of `sioEncoder.Encode`: body `~h~<n>` and length
`len(itoa(n)) + 3`. -/
def sioEncodeHeartbeat (n : Int) : List Char :=
  sioFrame (sioDelimH ++ intToChars n)

/-- The JSON case of `sioEncoder.Encode`, applied to the already marshalled
compact JSON text `j`: body `~j~<j>` and length `runecount(j) + 3`. -/
def sioEncodeJSON (j : List Char) : List Char :=
  if j.length = 0 then [] else sioFrame (sioDelimJ ++ j)

/-- Payloads of the SIO encoder whose decoding we track: a heartbeat, a
text payload (`string`/`[]byte`/`int` cases), or a marshalled JSON payload. -/
inductive SioPayload
  | hb (n : Int)
  | txt (s : List Char)
  | jsn (j : List Char)
deriving DecidableEq, Repr

/-- Encode one payload as `sioEncoder.Encode` does. -/
def sioEncodePayload : SioPayload → List Char
  | .hb n => sioEncodeHeartbeat n
  | .txt s => sioEncodeString s
  | .jsn j => sioEncodeJSON j

/-- Encode a payload sequence back to back (successive `Encode` calls on
the same destination, as the flusher batches them). -/
def sioEncodeAll : List SioPayload → List Char
  | [] => []
  | p :: ps => sioEncodePayload p ++ sioEncodeAll ps

/-- A payload that decodes back to itself: texts must be non-empty and not
begin with a `~j~`/`~h~` marker, JSON bodies non-empty. -/
def sioValidPayload : SioPayload → Prop
  | .hb _ => True
  | .txt s => s ≠ [] ∧ s.take 3 ≠ sioDelimJ ∧ s.take 3 ≠ sioDelimH
  | .jsn j => j ≠ []

instance : DecidablePred sioValidPayload := by
  intro p
  cases p <;> simp only [sioValidPayload] <;> infer_instance

/-- The message the decoder is expected to produce for each payload. -/
def sioExpectedMsg : SioPayload → SioMsg
  | .hb n => ⟨sioMessageTypeHeartbeat, false, intToChars n⟩
  | .txt s => ⟨sioMessageTypeMessage, false, s⟩
  | .jsn j => ⟨sioMessageTypeMessage, true, j⟩

/-- Feed chunks one at a time to the stateful decoder (each chunk is one
write to the source buffer followed by one `Decode` call), accumulating all
returned messages. -/
def sioDecodeChunks (s : SioSt) : List (List Char) → Except String (SioSt × List SioMsg)
  | [] => .ok (s, [])
  | ch :: chs =>
    match sioRun s ch with
    | .error e => .error e
    | .ok (s1, m1) =>
      match sioDecodeChunks s1 chs with
      | .error e => .error e
      | .ok (s2, m2) => .ok (s2, m1 ++ m2)

theorem sioRun_append (s : SioSt) (a b : List Char) :
    sioRun s (a ++ b) =
      match sioRun s a with
      | .error e => .error e
      | .ok (s1, m1) =>
        match sioRun s1 b with
        | .error e => .error e
        | .ok (s2, m2) => .ok (s2, m1 ++ m2) := by
  induction a generalizing s with
  | nil =>
    rw [List.nil_append]
    show _ = (match Except.ok (s, ([] : List SioMsg)) with
      | .error e => .error e
      | .ok (s1, m1) =>
        match sioRun s1 b with
        | .error e => .error e
        | .ok (s2, m2) => .ok (s2, m1 ++ m2))
    dsimp only
    cases sioRun s b with
    | error e => rfl
    | ok r =>
      obtain ⟨s2, m2⟩ := r
      dsimp only
      rw [List.nil_append]
  | cons c cs ih =>
    rw [List.cons_append, sioRun, sioRun]
    cases hs : sioStep s c with
    | error e => rfl
    | ok r =>
      obtain ⟨s', m⟩ := r
      dsimp only
      rw [ih s']
      cases hr : sioRun s' cs with
      | error e => rfl
      | ok r2 =>
        obtain ⟨s'', ms⟩ := r2
        dsimp only
        cases hb : sioRun s'' b with
        | error e => rfl
        | ok r3 =>
          obtain ⟨s3, ms3⟩ := r3
          dsimp only
          rw [List.append_assoc]

theorem sioRun_len_digits (es : List Char) :
    ∀ buf, (∀ c ∈ es, isDig c = true) →
      sioRun (.len buf) es = .ok (.len (buf ++ es), []) := by
  induction es with
  | nil =>
    intro buf _
    rw [List.append_nil]
    rfl
  | cons c cs ih =>
    intro buf h
    rw [sioRun, sioStep, if_pos (h c (List.mem_cons_self c cs))]
    dsimp only
    rw [ih (buf ++ [c]) (fun x hx => h x (List.mem_cons_of_mem c hx))]
    dsimp only
    rw [List.append_assoc]
    rfl

theorem atoiNat_natToChars (n : Nat) : atoiNat (natToChars n) = some n := by
  unfold atoiNat
  rw [if_neg (by simp [natToChars_ne_nil n]), if_pos (by
    rw [List.all_eq_true]
    exact natToChars_all_digit n)]
  rw [digitsVal_natToChars_zero]

theorem sioStep_len_tilde (d : List Char) (L : Nat) (hd : atoiNat d = some L) :
    sioStep (.len d) '~' = sioHeaderEnd L [] '~' := by
  rw [sioStep, if_neg (by decide), hd]

theorem sioStep_hend_m (L : Nat) :
    sioHeaderEnd L ['~'] 'm' = .ok (.hend L ['~', 'm'], none) := by
  rfl

theorem sioStep_hend_close (L : Nat) (hL : 0 < L) :
    sioHeaderEnd L ['~', 'm'] '~' = .ok (.dat L [], none) := by
  unfold sioHeaderEnd
  rw [if_neg (by decide), if_pos (by decide), if_pos hL]

/-- Consuming the closing `~m~` after the digits of a positive length takes
the decoder into the data state. -/
theorem sioRun_len_close (d rest : List Char) (L : Nat)
    (hd : atoiNat d = some L) (hL : 0 < L) :
    sioRun (.len d) (sioDelimM ++ rest) = sioRun (.dat L []) rest := by
  show sioRun (.len d) ('~' :: 'm' :: '~' :: rest) = _
  rw [sioRun, sioStep_len_tilde d L hd,
    show sioHeaderEnd L [] '~' = .ok (.hend L ['~'], none) from rfl]
  dsimp only
  rw [sioRun, show sioStep (.hend L ['~']) 'm' = sioHeaderEnd L ['~'] 'm' from rfl,
    sioStep_hend_m L]
  dsimp only
  rw [sioRun, show sioStep (.hend L ['~', 'm']) '~' = sioHeaderEnd L ['~', 'm'] '~' from rfl,
    sioStep_hend_close L hL]
  dsimp only
  cases hr : sioRun (.dat L []) rest with
  | error e => rfl
  | ok r =>
    obtain ⟨s, ms⟩ := r
    simp

theorem sioRun_dat_exact (body : List Char) :
    ∀ buf, body ≠ [] →
      sioRun (.dat body.length buf) body = .ok (.hdr [], [sioMkMsg (buf ++ body)]) := by
  induction body with
  | nil => intro buf h; exact absurd rfl h
  | cons c cs ih =>
    intro buf _
    rw [sioRun, sioStep]
    cases cs with
    | nil =>
      rw [if_pos (by simp)]
      dsimp only [sioRun]
      rfl
    | cons c2 cs2 =>
      rw [if_neg (by simp)]
      dsimp only
      rw [show ((c :: c2 :: cs2).length - 1) = (c2 :: cs2).length from by simp]
      rw [ih (buf ++ [c]) (by simp)]
      dsimp only
      rw [List.append_assoc]
      rfl

theorem sioRun_dat_more (es : List Char) :
    ∀ (buf : List Char) (n : Nat), es.length < n →
      sioRun (.dat n buf) es = .ok (.dat (n - es.length) (buf ++ es), []) := by
  induction es with
  | nil =>
    intro buf n _
    rw [List.append_nil]
    rfl
  | cons c cs ih =>
    intro buf n h
    rw [sioRun, sioStep, if_neg (by simp at h ⊢; omega)]
    dsimp only
    rw [ih (buf ++ [c]) (n - 1) (by simp at h; omega)]
    dsimp only
    rw [List.append_assoc,
      show n - 1 - cs.length = n - (c :: cs).length from by simp; omega]
    rfl

/-- Decoding one complete frame from the initial state yields exactly the
message built from the body. -/
theorem sioRun_frame (body : List Char) (hb : body ≠ []) :
    sioRun (.hdr []) (sioFrame body) = .ok (.hdr [], [sioMkMsg body]) := by
  have hL : 0 < body.length := List.length_pos.mpr hb
  rw [show sioFrame body =
      sioDelimM ++ (natToChars body.length ++ (sioDelimM ++ body)) from by
    simp [sioFrame, List.append_assoc]]
  rw [sioRun_append,
    show sioRun (.hdr []) sioDelimM = .ok (.len [], []) from rfl]
  dsimp only
  rw [sioRun_append, sioRun_len_digits _ [] (natToChars_all_digit body.length),
    List.nil_append]
  dsimp only
  rw [sioRun_len_close _ _ _ (atoiNat_natToChars body.length) hL]
  rw [sioRun_dat_exact body [] hb, List.nil_append]
  rfl

/-- The frame body each valid payload encodes to. -/
def sioBody : SioPayload → List Char
  | .hb n => sioDelimH ++ intToChars n
  | .txt s => s
  | .jsn j => sioDelimJ ++ j

theorem sioEncodePayload_eq_frame (p : SioPayload) (hv : sioValidPayload p) :
    sioEncodePayload p = sioFrame (sioBody p) := by
  cases p with
  | hb n => rfl
  | txt s =>
    obtain ⟨h1, -, -⟩ := hv
    simp only [sioEncodePayload, sioEncodeString, sioBody]
    rw [if_neg (by simp [h1])]
  | jsn j =>
    have h1 : j ≠ [] := hv
    simp only [sioEncodePayload, sioEncodeJSON, sioBody]
    rw [if_neg (by simp [h1])]

theorem sioBody_ne_nil (p : SioPayload) (hv : sioValidPayload p) :
    sioBody p ≠ [] := by
  cases p with
  | hb n => simp [sioBody, sioDelimH]
  | txt s => exact hv.1
  | jsn j => simp [sioBody, sioDelimJ]

theorem sioMkMsg_sioBody (p : SioPayload) (hv : sioValidPayload p) :
    sioMkMsg (sioBody p) = sioExpectedMsg p := by
  cases p with
  | hb n =>
    unfold sioMkMsg sioBody sioExpectedMsg
    rw [List.take_left' (show sioDelimH.length = 3 from rfl),
      List.drop_left' (show sioDelimH.length = 3 from rfl)]
    rw [if_neg (by decide), if_pos rfl]
  | txt s =>
    obtain ⟨-, h2, h3⟩ := hv
    unfold sioMkMsg sioExpectedMsg sioBody
    rw [if_neg h2, if_neg h3]
  | jsn j =>
    unfold sioMkMsg sioBody sioExpectedMsg
    rw [List.take_left' (show sioDelimJ.length = 3 from rfl),
      List.drop_left' (show sioDelimJ.length = 3 from rfl)]
    rw [if_pos rfl]

/-- Full run over an encoded payload sequence: all messages, in order, and
the decoder back in its initial state. -/
theorem sioRun_encodeAll (ps : List SioPayload) (hv : ∀ p ∈ ps, sioValidPayload p) :
    sioRun (.hdr []) (sioEncodeAll ps) = .ok (.hdr [], ps.map sioExpectedMsg) := by
  induction ps with
  | nil => rfl
  | cons p ps ih =>
    have hp : sioValidPayload p := hv p (List.mem_cons_self p ps)
    rw [sioEncodeAll, sioRun_append, sioEncodePayload_eq_frame p hp,
      sioRun_frame _ (sioBody_ne_nil p hp)]
    dsimp only
    rw [ih (fun q hq => hv q (List.mem_cons_of_mem p hq))]
    dsimp only
    rw [sioMkMsg_sioBody p hp]
    rfl

theorem isErr_sioRun_bind_ok {s1 : SioSt} {m1 : List SioMsg} {s : SioSt}
    {cs : List Char} (h : sioRun s cs = .ok (s1, m1)) :
    isErr (match sioRun s cs with
      | .error e => (.error e : Except String (SioSt × List SioMsg))
      | .ok (s2, m2) => .ok (s2, m1 ++ m2)) = false := by
  rw [h]
  rfl

/-- Any prefix of a single frame runs through the decoder without error. -/
theorem sioRun_frame_take (body : List Char) (hb : body ≠ []) (k : Nat) :
    isErr (sioRun (.hdr []) ((sioFrame body).take k)) = false := by
  have hL : 0 < body.length := List.length_pos.mpr hb
  by_cases hk : (sioFrame body).length ≤ k
  · rw [List.take_of_length_le hk, sioRun_frame body hb]
    rfl
  push_neg at hk
  have hflen : (sioFrame body).length =
      3 + (natToChars body.length).length + 3 + body.length := by
    simp [sioFrame, sioDelimM]
    omega
  have hfs : sioFrame body =
      sioDelimM ++ (natToChars body.length ++ (sioDelimM ++ body)) := by
    simp [sioFrame, List.append_assoc]
  rw [hfs, List.take_append_eq_append_take]
  by_cases h1 : k < 3
  · have hj : k - sioDelimM.length = 0 := by simp [sioDelimM]; omega
    rw [hj, List.take_zero, List.append_nil]
    interval_cases k <;> decide
  · push_neg at h1
    rw [List.take_of_length_le (show sioDelimM.length ≤ k by simpa [sioDelimM] using h1)]
    rw [List.take_append_eq_append_take]
    rw [show sioDelimM.length = 3 from rfl]
    by_cases h2 : k - 3 ≤ (natToChars body.length).length
    · have hi : k - 3 - (natToChars body.length).length = 0 := by omega
      rw [hi, List.take_zero, List.append_nil]
      rw [sioRun_append, show sioRun (.hdr []) sioDelimM = .ok (.len [], []) from rfl]
      dsimp only
      have hds : sioRun (.len []) ((natToChars body.length).take (k - 3)) =
          .ok (.len ([] ++ (natToChars body.length).take (k - 3)), []) :=
        sioRun_len_digits _ []
          (fun c hc => natToChars_all_digit body.length c (List.mem_of_mem_take hc))
      exact isErr_sioRun_bind_ok hds
    · push_neg at h2
      rw [List.take_of_length_le (le_of_lt h2), List.take_append_eq_append_take]
      rw [show sioDelimM.length = 3 from rfl]
      rw [sioRun_append, show sioRun (.hdr []) sioDelimM = .ok (.len [], []) from rfl]
      dsimp only
      rw [sioRun_append, sioRun_len_digits _ [] (natToChars_all_digit body.length),
        List.nil_append]
      dsimp only
      set ds := natToChars body.length with hds
      set i := k - 3 - ds.length with hidef
      have hi1 : 1 ≤ i := by omega
      by_cases h3 : i < 3
      · have hr : i - 3 = 0 := by omega
        rw [hr, List.take_zero, List.append_nil]
        interval_cases i
        · -- one char of the closing delimiter
          have : sioDelimM.take 1 = ['~'] := rfl
          rw [this, sioRun, sioStep_len_tilde ds body.length (atoiNat_natToChars _),
            show sioHeaderEnd body.length [] '~' = .ok (.hend body.length ['~'], none)
              from rfl]
          rfl
        · -- two chars of the closing delimiter
          have : sioDelimM.take 2 = ['~', 'm'] := rfl
          rw [this, sioRun, sioStep_len_tilde ds body.length (atoiNat_natToChars _),
            show sioHeaderEnd body.length [] '~' = .ok (.hend body.length ['~'], none)
              from rfl]
          dsimp only
          rw [sioRun,
            show sioStep (.hend body.length ['~']) 'm' = sioHeaderEnd body.length ['~'] 'm'
              from rfl,
            sioStep_hend_m body.length]
          rfl
      · push_neg at h3
        rw [List.take_of_length_le (show sioDelimM.length ≤ i by simpa [sioDelimM] using h3)]
        rw [sioRun_len_close ds _ body.length (atoiNat_natToChars _) hL]
        have hrlt : i - 3 < body.length := by
          rw [hflen] at hk
          omega
        have hlen_take : (body.take (i - 3)).length = i - 3 := by
          rw [List.length_take]
          omega
        have hrun := sioRun_dat_more (body.take (i - 3)) [] body.length
          (by rw [hlen_take]; exact hrlt)
        rw [hrun]
        rfl

/-- Any prefix of an encoded payload stream runs through the decoder
without error. -/
theorem sioRun_encodeAll_take (ps : List SioPayload)
    (hv : ∀ p ∈ ps, sioValidPayload p) (k : Nat) :
    isErr (sioRun (.hdr []) ((sioEncodeAll ps).take k)) = false := by
  induction ps generalizing k with
  | nil =>
    rw [show sioEncodeAll [] = [] from rfl, List.take_nil]
    rfl
  | cons p ps ih =>
    have hp : sioValidPayload p := hv p (List.mem_cons_self p ps)
    rw [sioEncodeAll, List.take_append_eq_append_take]
    by_cases h1 : k ≤ (sioEncodePayload p).length
    · have h0 : k - (sioEncodePayload p).length = 0 := by omega
      rw [h0, List.take_zero, List.append_nil, sioEncodePayload_eq_frame p hp]
      exact sioRun_frame_take _ (sioBody_ne_nil p hp) k
    · push_neg at h1
      rw [sioEncodePayload_eq_frame p hp] at h1 ⊢
      rw [List.take_of_length_le (le_of_lt h1)]
      rw [sioRun_append, sioRun_frame _ (sioBody_ne_nil p hp)]
      dsimp only
      have hrest := ih (fun q hq => hv q (List.mem_cons_of_mem p hq))
        (k - (sioFrame (sioBody p)).length)
      cases hr : sioRun (.hdr [])
          ((sioEncodeAll ps).take (k - (sioFrame (sioBody p)).length)) with
      | error e => rw [hr] at hrest; exact absurd hrest (by simp [isErr])
      | ok r =>
        obtain ⟨s2, m2⟩ := r
        rfl

/-- Feeding the chunks one call at a time equals one run over their
concatenation (the source buffer persists between `Decode` calls). -/
theorem sioDecodeChunks_eq_flatten (cs : List (List Char)) :
    ∀ s, sioDecodeChunks s cs = sioRun s cs.flatten := by
  induction cs with
  | nil => intro s; rfl
  | cons ch chs ih =>
    intro s
    rw [show (ch :: chs).flatten = ch ++ chs.flatten from rfl, sioRun_append,
      sioDecodeChunks]
    cases hr : sioRun s ch with
    | error e => rfl
    | ok r =>
      obtain ⟨s1, m1⟩ := r
      dsimp only
      rw [ih s1]

/-- C2 (amended): For the delimiter-framed (SIO) decoder: for every
sequence of valid payloads and every split of the concatenated encoding into
chunks at rune boundaries, feeding the chunks in order yields exactly the
expected messages in order, the decoder ends in its initial state (no
buffered partial frame, every input rune consumed), and no call — in
particular no intermediate, partial-input call — returns an error. -/
theorem sioDecoder_resumable (ps : List SioPayload)
    (hv : ∀ p ∈ ps, sioValidPayload p)
    (cs : List (List Char)) (hcs : cs.flatten = sioEncodeAll ps) :
    sioDecodeChunks (.hdr []) cs = .ok (.hdr [], ps.map sioExpectedMsg) ∧
    ∀ i, isErr (sioDecodeChunks (.hdr []) (cs.take i)) = false := by
  constructor
  · rw [sioDecodeChunks_eq_flatten, hcs, sioRun_encodeAll ps hv]
  · intro i
    rw [sioDecodeChunks_eq_flatten]
    have hsplit : (cs.take i).flatten ++ (cs.drop i).flatten = sioEncodeAll ps := by
      rw [← List.flatten_append, List.take_append_drop, hcs]
    have hpre : (cs.take i).flatten =
        (sioEncodeAll ps).take (cs.take i).flatten.length := by
      rw [← hsplit, List.take_left]
    rw [hpre]
    exact sioRun_encodeAll_take ps hv _

/-- C2 witness: The text `"hi"` and a heartbeat, encoded as
`~m~2~m~hi~m~4~m~~h~5` and fed in three chunks cut inside the frames. -/
theorem sioDecoder_resumable_witness :
    sioDecodeChunks (.hdr [])
        [['~', 'm'], ['~', '2', '~', 'm', '~', 'h', 'i', '~', 'm', '~', '4', '~'],
         ['m', '~', '~', 'h', '~', '5']] =
      .ok (.hdr [], [SioMsg.mk 1 false ['h', 'i'], SioMsg.mk 2 false ['5']]) ∧
    isErr (sioDecodeChunks (.hdr [])
        ([['~', 'm'], ['~', '2', '~', 'm', '~', 'h', 'i', '~', 'm', '~', '4', '~'],
          ['m', '~', '~', 'h', '~', '5']].take 2)) = false :=
  ⟨(sioDecoder_resumable [.txt ['h', 'i'], .hb 5] (by decide)
      [['~', 'm'], ['~', '2', '~', 'm', '~', 'h', 'i', '~', 'm', '~', '4', '~'],
       ['m', '~', '~', 'h', '~', '5']] (by decide)).1,
   (sioDecoder_resumable [.txt ['h', 'i'], .hb 5] (by decide)
      [['~', 'm'], ['~', '2', '~', 'm', '~', 'h', 'i', '~', 'm', '~', '4', '~'],
       ['m', '~', '~', 'h', '~', '5']] (by decide)).2 2⟩

/-! ## The framing-A (v0.7) stateful decoder

`Decoder.Decode` from `codec.go` of the v0.7 family: a `�`-prefixed
buffer is parsed as `�<length>�<packet>`, anything else is decoded
as one packet consuming the whole buffer.
-/

/-- U+FFFD, the framing rune (3 bytes of UTF-8 on the wire). -/
def replChar : Char := Char.ofNat 0xFFFD

/-- Model of `Decoder.Decode`: one call on a buffer holding `buf`.  Returns the
decoded message and the bytes left in the buffer.  On a buffer that starts
with `�` but does not yet hold the full frame, it returns an error
(`index <= 0`, non-numeric length, or `length` longer than the available
data). -/
def decoderDecodeA (buf : List Char) : Except String (Message07 × List Char) :=
  match buf with
  | [] => .error "EOF"
  | c :: rest =>
    if c = replChar then
      match rest.findIdx? (fun x => x = replChar) with
      | none => .error "frame length is empty or missing"
      | some 0 => .error "frame length is empty or missing"
      | some i =>
        let length := positiveInt (rest.take i)
        if length < 0 then .error "frame length is not a positive integer"
        else
          let d := rest.drop (i + 1)
          if d.length < length.toNat then .error "frame length is overflowing"
          else
            match decodePacket (d.take length.toNat) with
            | .error e => .error e
            | .ok m => .ok (m, d.drop length.toNat)
    else
      match decodePacket buf with
      | .error e => .error e
      | .ok m => .ok (m, [])

/-- The framing-A `Encoder.Encode` on one `string` payload:
`�<byte-length>�<packet>` around the encoded text packet. -/
def encoderAText (s : List Char) : List Char :=
  replChar :: natToChars (encodeMessage (Message07.mk MessageText 0 false [] s)).length
    ++ replChar :: encodeMessage (Message07.mk MessageText 0 false [] s)

/-- C2 counterexample: Splitting the framing-A encoding of the single
text message `"ab"` after two runes and feeding the first chunk makes
`Decoder.Decode` return an error on partial input instead of waiting for
more bytes. -/
theorem decoderA_partial_input_error :
    (encoderAText ['a', 'b']).take 2 ++ (encoderAText ['a', 'b']).drop 2 =
      encoderAText ['a', 'b'] ∧
    decoderDecodeA ((encoderAText ['a', 'b']).take 2) =
      .error "frame length is empty or missing" := by
  exact ⟨List.take_append_drop 2 _, by decide⟩

/-! ## The streaming (0.7 draft) encoder -/

/-- The `string` case of `sioStreamingEncoder.Encode` (`"%d:%d::%s,"` with
length `1 + runecount`); a zero-rune string produces no output. -/
def sioStreamingEncodeString (s : List Char) : List Char :=
  if s.length = 0 then []
  else natToChars sioMessageTypeMessage ++ [':'] ++ natToChars (1 + s.length)
    ++ [':', ':'] ++ s ++ [',']

/-- The `[]byte` case of `sioStreamingEncoder.Encode` (identical framing). -/
def sioStreamingEncodeBytes (s : List Char) : List Char :=
  if s.length = 0 then []
  else natToChars sioMessageTypeMessage ++ [':'] ++ natToChars (1 + s.length)
    ++ [':', ':'] ++ s ++ [',']

/-- C10: Both delimiter-framed encoders write zero bytes (and no error)
for an empty string or empty byte-slice payload, so the SIO encoder can
never emit the zero-length text frame `~m~0~m~` — which the SIO decoder
accepts as an empty text message. -/
theorem sioEncoders_empty_payload :
    sioEncodeString [] = [] ∧ sioEncodeBytes [] = [] ∧
    sioStreamingEncodeString [] = [] ∧ sioStreamingEncodeBytes [] = [] ∧
    (∀ s : List Char, sioEncodeString s ≠ sioFrame []) ∧
    (∀ s : List Char, sioEncodeBytes s ≠ sioFrame []) ∧
    sioRun (.hdr []) (sioFrame []) =
      .ok (.hdr [], [SioMsg.mk sioMessageTypeMessage false []]) := by
  have hne : ∀ s : List Char, (if s.length = 0 then [] else sioFrame s) ≠ sioFrame [] := by
    intro s h
    by_cases h0 : s.length = 0
    · rw [if_pos h0] at h
      exact absurd h.symm (by decide)
    · rw [if_neg h0] at h
      have hlen := congrArg List.length h
      have hd1 : 1 ≤ (natToChars s.length).length := by
        cases hnn : natToChars s.length with
        | nil => exact absurd hnn (natToChars_ne_nil _)
        | cons a l => simp
      rw [show (sioFrame []).length = 7 from by decide] at hlen
      simp only [sioFrame, sioDelimM, List.length_append] at hlen
      simp at hlen
      omega
  exact ⟨rfl, rfl, rfl, rfl, fun s => hne s, fun s => hne s, by decide⟩

/-- C10 witness: The non-emission of the empty frame at a concrete
payload. -/
theorem sioEncoders_empty_payload_witness :
    sioEncodeString ['a'] ≠ sioFrame [] :=
  sioEncoders_empty_payload.2.2.2.2.1 ['a']

/-! ## The session (`Conn`) state machine

From `connection.go` of the v0.6 family (`Conn.Send`, `Conn.Close`,
`Conn.disconnect`, `Conn.keepalive`, `Conn.handle`).  The buffered channel
`queue` is a list bounded by `Config.QueueLength`; a non-blocking channel
send succeeds exactly when the buffer holds fewer than `QueueLength`
items.  Closing a channel is recorded by a flag.
-/

/-- The error values `ErrDestroyed`, `ErrQueueFull` and `ErrNotConnected`. -/
inductive ConnErr
  | destroyed
  | queueFull
  | notConnected
deriving DecidableEq, Repr

/-- An entry of the outbound queue: an application payload or a heartbeat
(`c.queue <- data` vs `c.queue <- heartbeat(n)`). -/
inductive QItem (α : Type)
  | user (a : α)
  | hb (n : Nat)
deriving DecidableEq, Repr

/-- The `Conn` fields the session claims are about. -/
structure ConnState (α : Type) where
  disconnected : Bool
  online : Bool
  queue : List (QItem α)
  queueClosed : Bool
  wakeupFlusherClosed : Bool
  wakeupReaderClosed : Bool
  socketClosed : Bool
  numHeartbeats : Nat
  lastHeartbeat : Int
  lastDisconnected : Int
deriving DecidableEq, Repr

/-- Model of `Conn.Send`: `ErrDestroyed` on a disconnected session, then a
non-blocking channel send that fails with `ErrQueueFull` when the buffer is
full. -/
def connSend {α : Type} (queueLength : Nat) (s : ConnState α) (d : α) :
    ConnState α × Option ConnErr :=
  if s.disconnected then (s, some .destroyed)
  else if s.queue.length < queueLength then
    ({ s with queue := s.queue ++ [QItem.user d] }, none)
  else (s, some .queueFull)

/-- Model of `Conn.disconnect`: close the socket, set the disconnected flag, close
both wakeup channels and the queue. -/
def connDisconnect {α : Type} (s : ConnState α) : ConnState α :=
  { s with
    socketClosed := true
    disconnected := true
    wakeupFlusherClosed := true
    wakeupReaderClosed := true
    queueClosed := true }

/-- Model of `Conn.Close`: `ErrNotConnected` when already disconnected, otherwise
`disconnect` and one invocation of `sio.onDisconnect` (the returned count). -/
def connClose {α : Type} (s : ConnState α) : ConnState α × Option ConnErr × Nat :=
  if s.disconnected then (s, some .notConnected, 0)
  else (connDisconnect s, none, 1)

/-- One firing of the `keepalive` ticker at time `t`: return on a
disconnected session; disconnect on reconnect-timeout or missed heartbeat;
otherwise bump the counter and try to enqueue the heartbeat, disconnecting
when the queue is full.  The boolean tells whether the loop keeps
running. -/
def keepaliveTick {α : Type} (queueLength : Nat) (reconnectTimeout t : Int)
    (s : ConnState α) : ConnState α × Bool :=
  if s.disconnected then (s, false)
  else if (s.online = false ∧ reconnectTimeout < t - s.lastDisconnected) ∨
      s.lastHeartbeat < (s.numHeartbeats : Int) then
    (connDisconnect s, false)
  else
    let s1 := { s with numHeartbeats := s.numHeartbeats + 1 }
    if s1.queue.length < queueLength then
      ({ s1 with queue := s1.queue ++ [QItem.hb s1.numHeartbeats] }, true)
    else
      (connDisconnect s1, false)

/-- C3: `Send` semantics: destroyed error on a disconnected session,
queue-full error (queue unchanged) on a full queue, and an in-order enqueue
otherwise. -/
theorem connSend_semantics (queueLength : Nat) (s : ConnState Nat) (d : Nat) :
    (s.disconnected = true → connSend queueLength s d = (s, some .destroyed)) ∧
    (s.disconnected = false → queueLength ≤ s.queue.length →
      connSend queueLength s d = (s, some .queueFull)) ∧
    (s.disconnected = false → s.queue.length < queueLength →
      connSend queueLength s d = ({ s with queue := s.queue ++ [QItem.user d] }, none)) := by
  refine ⟨fun h1 => ?_, fun h1 h2 => ?_, fun h1 h2 => ?_⟩
  · rw [connSend, if_pos h1]
  · rw [connSend, if_neg (by simp [h1]), if_neg (by omega)]
  · rw [connSend, if_neg (by simp [h1]), if_pos h2]

/-- C3 witness: All three `Send` outcomes at concrete sessions with
`QueueLength = 1`. -/
theorem connSend_semantics_witness :
    connSend 1 (ConnState.mk true true [] false false false false 0 0 0) 7 =
      (ConnState.mk true true [] false false false false 0 0 0, some .destroyed) ∧
    connSend 1 (ConnState.mk false true [QItem.user 5] false false false false 0 0 0) 7 =
      (ConnState.mk false true [QItem.user 5] false false false false 0 0 0,
        some .queueFull) ∧
    connSend 1 (ConnState.mk false true [] false false false false 0 0 0) 7 =
      (ConnState.mk false true [QItem.user 7] false false false false 0 0 0, none) :=
  ⟨(connSend_semantics 1 _ 7).1 rfl,
   (connSend_semantics 1 _ 7).2.1 rfl (by decide),
   (connSend_semantics 1 _ 7).2.2 rfl (by decide)⟩

/-- C4: When the heartbeat ticker fires on a live session that passes
the timeout checks but whose queue is full, the session transitions to
shutting-down: disconnected set, queue and both wakeup channels closed, the
ticker loop stopped, and the pending queue left unchanged. -/
theorem keepaliveTick_queue_full_fatal (queueLength : Nat)
    (reconnectTimeout t : Int) (s : ConnState Nat)
    (hd : s.disconnected = false)
    (hcond : ¬((s.online = false ∧ reconnectTimeout < t - s.lastDisconnected) ∨
      s.lastHeartbeat < (s.numHeartbeats : Int)))
    (hfull : queueLength ≤ s.queue.length) :
    (keepaliveTick queueLength reconnectTimeout t s).1.disconnected = true ∧
    (keepaliveTick queueLength reconnectTimeout t s).1.queueClosed = true ∧
    (keepaliveTick queueLength reconnectTimeout t s).1.wakeupFlusherClosed = true ∧
    (keepaliveTick queueLength reconnectTimeout t s).1.wakeupReaderClosed = true ∧
    (keepaliveTick queueLength reconnectTimeout t s).1.queue = s.queue ∧
    (keepaliveTick queueLength reconnectTimeout t s).2 = false := by
  have he : keepaliveTick queueLength reconnectTimeout t s =
      (connDisconnect { s with numHeartbeats := s.numHeartbeats + 1 }, false) := by
    rw [keepaliveTick, if_neg (by simp [hd]), if_neg hcond, if_neg (by simp; omega)]
  rw [he]
  simp [connDisconnect]

/-- C4 witness: A live online session with `QueueLength = 1` and one
pending payload when the ticker fires. -/
theorem keepaliveTick_queue_full_fatal_witness :
    (keepaliveTick 1 10 0 (ConnState.mk false true [QItem.user 5]
      false false false false 3 3 0)).1.disconnected = true ∧
    (keepaliveTick 1 10 0 (ConnState.mk false true [QItem.user 5]
      false false false false 3 3 0)).1.queueClosed = true ∧
    (keepaliveTick 1 10 0 (ConnState.mk false true [QItem.user 5]
      false false false false 3 3 0)).1.wakeupFlusherClosed = true ∧
    (keepaliveTick 1 10 0 (ConnState.mk false true [QItem.user 5]
      false false false false 3 3 0)).1.wakeupReaderClosed = true ∧
    (keepaliveTick 1 10 0 (ConnState.mk false true [QItem.user 5]
      false false false false 3 3 0)).1.queue = [QItem.user 5] ∧
    (keepaliveTick 1 10 0 (ConnState.mk false true [QItem.user 5]
      false false false false 3 3 0)).2 = false :=
  keepaliveTick_queue_full_fatal 1 10 0
    (ConnState.mk false true [QItem.user 5] false false false false 3 3 0)
    rfl (by decide) (by decide)

/-- C5: Two successive `Close` calls on a connected session: the first
succeeds, the second returns `ErrNotConnected`, and `onDisconnect` runs
exactly once across the two calls. -/
theorem connClose_idempotent (s : ConnState Nat) (h : s.disconnected = false) :
    (connClose s).2.1 = none ∧
    (connClose (connClose s).1).2.1 = some .notConnected ∧
    (connClose s).2.2 + (connClose (connClose s).1).2.2 = 1 := by
  have h1 : connClose s = (connDisconnect s, none, 1) := by
    rw [connClose, if_neg (by simp [h])]
  have h2 : connClose (connDisconnect s) =
      (connDisconnect s, some .notConnected, 0) := by
    simp [connClose, connDisconnect]
  rw [h1]
  dsimp only
  rw [h2]
  exact ⟨rfl, rfl, rfl⟩

/-- C5 witness: The double close at a concrete connected session. -/
theorem connClose_idempotent_witness :
    (connClose (ConnState.mk false true ([] : List (QItem Nat))
      false false false false 0 0 0)).2.1 = none ∧
    (connClose (connClose (ConnState.mk false true ([] : List (QItem Nat))
      false false false false 0 0 0)).1).2.1 = some .notConnected ∧
    (connClose (ConnState.mk false true ([] : List (QItem Nat))
      false false false false 0 0 0)).2.2 +
      (connClose (connClose (ConnState.mk false true ([] : List (QItem Nat))
        false false false false 0 0 0)).1).2.2 = 1 :=
  connClose_idempotent (ConnState.mk false true ([] : List (QItem Nat))
    false false false false 0 0 0) rfl

/-! ## Session-table ordering on the handshake path

The successful GET path of `Conn.handle`: inside the accepted socket the
old socket is closed, the new one attached, the handshake written and the
workers started for a fresh session, the wakeup channels signalled, and —
only after all of that — `sio.onConnect` is invoked, which inserts the
session into the server's table and then calls the application callback.
-/

/-- The observable actions of the GET path of `Conn.handle`, in program
order, as a function of whether a socket was already attached and whether
the session had already handshaked. -/
inductive HandleEvent
  | closeOldSocket
  | attachSocket
  | writeHandshake
  | startWorkers
  | signalWakeups
  | insertSessionTable
  | appOnConnect
deriving DecidableEq, Repr

/-- The trace of `Conn.handle` (GET, accept succeeded, handshake write
succeeded) followed by `SocketIO.onConnect` when a handshake was done. -/
def connHandleGetTrace (hasOldSocket handshaked : Bool) : List HandleEvent :=
  (if hasOldSocket then [HandleEvent.closeOldSocket] else []) ++
  [HandleEvent.attachSocket] ++
  (if handshaked then [] else [HandleEvent.writeHandshake, HandleEvent.startWorkers]) ++
  [HandleEvent.signalWakeups] ++
  (if handshaked then [] else [HandleEvent.insertSessionTable, HandleEvent.appOnConnect])

/-- C6 counterexample: On a fresh session, the handshake write comes
*before* the insertion into the session table, refuting the claimed
insert-before-handshake ordering. -/
theorem handshake_insert_order_counterexample :
    connHandleGetTrace false false =
      [HandleEvent.attachSocket, HandleEvent.writeHandshake, HandleEvent.startWorkers,
       HandleEvent.signalWakeups, HandleEvent.insertSessionTable,
       HandleEvent.appOnConnect] ∧
    ¬((connHandleGetTrace false false).indexOf HandleEvent.insertSessionTable <
      (connHandleGetTrace false false).indexOf HandleEvent.writeHandshake) := by
  exact ⟨by decide, by decide⟩

/-- C6 (amended): On the handshake path the handshake frame is written
strictly before the session is inserted into the server's session table
(the session identifier is absent from the table while the handshake is
written). -/
theorem handshake_written_before_insert (hasOldSocket : Bool) :
    (connHandleGetTrace hasOldSocket false).indexOf HandleEvent.writeHandshake <
    (connHandleGetTrace hasOldSocket false).indexOf HandleEvent.insertSessionTable := by
  cases hasOldSocket <;> decide

/-! ## Origin verification

`SocketIO.verifyOrigin` and the origin gate at the top of
`SocketIO.handle`.  The request's `Origin` header is given to the model
already URL-parsed, as its scheme and its `Host` component (the code
rejects a header whose parsed host is empty).
-/

/-- The per-entry test from the loop body of `verifyOrigin`: host component
`*` or equal; then the port: entry without port or `*`, the scheme's
default port (80 for http/ws, 443 for https/wss) when the request host has
no port, or equal ports. -/
def originEntryMatch (scheme : List Char) (host : List (List Char))
    (o : List Char) : Bool :=
  let origin := splitNColon 2 o
  if origin[0]! = ['*'] ∨ origin[0]! = host[0]! then
    if origin.length < 2 ∨ origin[1]! = ['*'] then true
    else if host.length < 2 then
      if scheme = "http".toList ∨ scheme = "ws".toList then
        origin[1]! = "80".toList
      else if scheme = "https".toList ∨ scheme = "wss".toList then
        origin[1]! = "443".toList
      else false
    else origin[1]! = host[1]!
  else false

/-- The loop of `verifyOrigin`: first matching entry wins. -/
def verifyOriginList (scheme : List Char) (host : List (List Char)) :
    List (List Char) → Bool
  | [] => false
  | o :: rest =>
    if originEntryMatch scheme host o then true
    else verifyOriginList scheme host rest

/-- Model of `SocketIO.verifyOrigin`: `false` when `Config.Origins` is nil or the
parsed host is empty, otherwise the loop over the configured entries with
the host split at its first `':'`. -/
def verifyOrigin (origins : Option (List (List Char)))
    (scheme uhost : List Char) : Bool :=
  match origins with
  | none => false
  | some os =>
    if uhost = [] then false
    else verifyOriginList scheme (splitNColon 2 uhost) os

/-- HTTP methods as `SocketIO.handle` distinguishes them. -/
inductive HMethod
  | options
  | get
  | post
  | other
deriving DecidableEq, Repr

/-- The outcome of `SocketIO.handle`: a 401, a 200 preflight reply, a 400
for an unknown session id, or dispatch to a session (`newSession = true`
when `newConn` created one). -/
inductive HOutcome
  | unauthorized
  | okPreflight
  | badRequest
  | handled (newSession : Bool)
deriving DecidableEq, Repr

/-- Model of `SocketIO.handle`: authorization, then the origin gate (only when an
`Origin` header is present), then the method switch, then session lookup or
creation from the URL. -/
def sioHandle (authorized : Bool) (originHdr : Option (List Char × List Char))
    (origins : Option (List (List Char))) (method : HMethod)
    (sidPart : Option (List Char)) (lookup : List Char → Bool) : HOutcome :=
  if authorized = false then .unauthorized
  else
    let originRejected :=
      match originHdr with
      | none => false
      | some (scheme, uhost) => !(verifyOrigin origins scheme uhost)
    if originRejected then .unauthorized
    else
      match method with
      | .options => .okPreflight
      | .other => .unauthorized
      | .get =>
        match sidPart with
        | none => .handled true
        | some sid => if lookup sid then .handled false else .badRequest
      | .post =>
        match sidPart with
        | none => .handled true
        | some sid => if lookup sid then .handled false else .badRequest

theorem verifyOriginList_iff (scheme : List Char) (host : List (List Char))
    (os : List (List Char)) :
    verifyOriginList scheme host os = true ↔
      ∃ o ∈ os, originEntryMatch scheme host o = true := by
  induction os with
  | nil => simp [verifyOriginList]
  | cons o rest ih =>
    rw [verifyOriginList]
    by_cases h : originEntryMatch scheme host o
    · simp [h]
    · rw [if_neg h, ih]
      simp only [List.mem_cons]
      constructor
      · rintro ⟨q, hq, hm⟩
        exact ⟨q, Or.inr hq, hm⟩
      · rintro ⟨q, hq | hq, hm⟩
        · rw [hq] at hm
          exact absurd hm h
        · exact ⟨q, hq, hm⟩

/-- C7: Origin verification: with a non-nil `Origins` list and a
non-empty parsed host, a request origin is accepted iff some configured
entry matches it (with `*` wildcarding the host or port component); with
`Origins = nil` verification always fails; a rejected origin makes `handle`
answer 401 without touching any session; and a request without an `Origin`
header is never rejected by the origin gate when `Origins` is nil. -/
theorem verifyOrigin_spec :
    (∀ (os : List (List Char)) (scheme uhost : List Char), uhost ≠ [] →
      (verifyOrigin (some os) scheme uhost = true ↔
        ∃ o ∈ os, originEntryMatch scheme (splitNColon 2 uhost) o = true)) ∧
    (∀ scheme uhost : List Char, verifyOrigin none scheme uhost = false) ∧
    (∀ (origins : Option (List (List Char))) (scheme uhost : List Char)
      (method : HMethod) (sidPart : Option (List Char)) (lookup : List Char → Bool),
      verifyOrigin origins scheme uhost = false →
      sioHandle true (some (scheme, uhost)) origins method sidPart lookup =
        .unauthorized) ∧
    (∀ (method : HMethod) (sidPart : Option (List Char))
      (lookup : List Char → Bool), method ≠ .other →
      sioHandle true none none method sidPart lookup ≠ .unauthorized) := by
  refine ⟨fun os scheme uhost h => ?_, fun scheme uhost => rfl,
    fun origins scheme uhost method sidPart lookup hv => ?_,
    fun method sidPart lookup hm => ?_⟩
  · rw [verifyOrigin, if_neg h]
    exact verifyOriginList_iff scheme (splitNColon 2 uhost) os
  · unfold sioHandle
    rw [if_neg (by simp)]
    dsimp only
    rw [hv]
    rfl
  · unfold sioHandle
    rw [if_neg (by simp)]
    dsimp only
    rw [if_neg (by simp)]
    cases method with
    | options => simp
    | other => exact absurd rfl hm
    | get => cases sidPart with
      | none => simp
      | some sid => by_cases hl : lookup sid <;> simp [hl]
    | post => cases sidPart with
      | none => simp
      | some sid => by_cases hl : lookup sid <;> simp [hl]

/-- C7 witness: `Origins = ["example.com:80"]` rejects the origin
`http://evil.com` with a 401 and accepts `http://example.com`. -/
theorem verifyOrigin_spec_witness :
    (verifyOrigin (some ["example.com:80".toList]) "http".toList "evil.com".toList
        = true ↔
      ∃ o ∈ ["example.com:80".toList],
        originEntryMatch "http".toList (splitNColon 2 "evil.com".toList) o = true) ∧
    sioHandle true (some ("http".toList, "evil.com".toList))
      (some ["example.com:80".toList]) .get none (fun _ => false) = .unauthorized ∧
    sioHandle true none none .get none (fun _ => false) ≠ .unauthorized :=
  ⟨verifyOrigin_spec.1 ["example.com:80".toList] "http".toList "evil.com".toList
      (by decide),
   verifyOrigin_spec.2.2.1 (some ["example.com:80".toList]) "http".toList
      "evil.com".toList .get none (fun _ => false) (by decide),
   verifyOrigin_spec.2.2.2 .get none (fun _ => false) (by decide)⟩

end GoSocketIO
